import Mathlib

/-!
Verification of the bot-gpt-backend service: a shallow embedding of the
pure logic of `rag_service.py` (text chunking, top-k retrieval),
`llm_service.py` (token counting, context windowing) and the conversation
state updates of `main.py` / `database.py`, together with proofs about it.

Modelling conventions:
* Python strings are Lean `String`s; Python `int` is `Int` (or `Nat` where
  the source only ever holds non-negative counts).
* Similarity scores (numpy floats) are modelled as rationals `ℚ`; the
  sentence-transformer encoder and sklearn's `cosine_similarity` are an
  uninterpreted parameter function, since the claims only concern the
  ranking logic applied to the scores.
* Fallible calls (sklearn raising on an empty matrix, the upstream LLM
  call failing) are modelled with `Option`: `none` is a raised exception.
-/

namespace BotGPT

/-- Configuration defaults from `config.py` (`Settings`): `CHUNK_SIZE = 500`. -/
def CHUNK_SIZE : Int := 500

/-- Configuration defaults from `config.py` (`Settings`): `TOP_K = 3`. -/
def TOP_K : Int := 3

/-- Accumulator loop for `pySplit`: walk the characters, collecting the
current token in reverse; whitespace closes the token (empty tokens are
dropped, as Python `str.split()` does). -/
def pySplitAux : List Char → List Char → List String
  | [], acc => if acc = [] then [] else [String.mk acc.reverse]
  | c :: cs, acc =>
      if c.isWhitespace then
        if acc = [] then pySplitAux cs []
        else String.mk acc.reverse :: pySplitAux cs []
      else pySplitAux cs (c :: acc)

/-- Python `text.split()` with no argument: split on runs of whitespace and
drop empty pieces. -/
def pySplit (s : String) : List String :=
  pySplitAux s.data []

/-- Python `sep.join(ws)`: interleave the separator between the elements. -/
def pyJoin (sep : String) : List String → String
  | [] => ""
  | [w] => w
  | w :: w2 :: ws => w ++ sep ++ pyJoin sep (w2 :: ws)

/-- Total length of a word list as accumulated by `chunk_text`'s
`current_length` counter: each word contributes `len(word) + 1`. -/
def wordsLen (ws : List String) : Nat :=
  (ws.map (fun w => w.length + 1)).sum

/-- Loop of `RAGService.chunk_text` (`rag_service.py` lines 36-48), on the
word list: `current_chunk` and `current_length` are the loop state; a chunk
is closed when `current_length + word_length > chunk_size and current_chunk`.
Chunks are kept as word lists; `chunk_text` joins them with spaces. -/
def chunkAux (chunkSize : Int) : List String → List String → Nat → List (List String)
  | [], current, _ =>
      if current = [] then [] else [current]
  | w :: ws, current, currentLength =>
      if ((currentLength + (w.length + 1) : Nat) : Int) > chunkSize ∧ current ≠ [] then
        current :: chunkAux chunkSize ws [w] (w.length + 1)
      else
        chunkAux chunkSize ws (current ++ [w]) (currentLength + (w.length + 1))

/-- Python `chunk_size = chunk_size or settings.CHUNK_SIZE`: `None` and `0`
are falsy and replaced by the default. -/
def effectiveChunkSize : Option Int → Int
  | none => CHUNK_SIZE
  | some c => if c = 0 then CHUNK_SIZE else c

/-- The `RAGService.chunk_text` method (`rag_service.py` lines 18-51):
split on whitespace, greedily pack words, join each chunk with spaces. -/
def chunk_text (text : String) (chunkSize : Option Int := none) : List String :=
  (chunkAux (effectiveChunkSize chunkSize) (pySplit text) [] 0).map (pyJoin " ")

/-- Packing rule in the words of the specification sentence for `chunk_text`:
tokens are appended until adding the next token (its length plus one
separator) to the current chunk would make the joined chunk length strictly
exceed `chunk_size`; only then is the chunk closed. Written from the spec's
words, to be compared with `chunk_text` from the source. -/
def specPackAux (chunkSize : Nat) : List String → List String → List (List String)
  | [], current => if current = [] then [] else [current]
  | w :: ws, current =>
      if current ≠ [] ∧ chunkSize < (pyJoin " " (current ++ [w])).length then
        current :: specPackAux chunkSize ws [w]
      else
        specPackAux chunkSize ws (current ++ [w])

/-- Spec-worded packing applied to a text. -/
def specPack (text : String) (chunkSize : Nat) : List String :=
  (specPackAux chunkSize (pySplit text) []).map (pyJoin " ")

/-- Amended packing rule: a chunk is closed as soon as appending the next
token would make the joined chunk length reach or exceed `chunk_size`
(the source's `current_length` counts a trailing separator). -/
def greedyPackAux (chunkSize : Nat) : List String → List String → List (List String)
  | [], current => if current = [] then [] else [current]
  | w :: ws, current =>
      if current ≠ [] ∧ chunkSize ≤ (pyJoin " " (current ++ [w])).length then
        current :: greedyPackAux chunkSize ws [w]
      else
        greedyPackAux chunkSize ws (current ++ [w])

/-- Amended packing applied to a text. -/
def greedyPack (text : String) (chunkSize : Nat) : List String :=
  (greedyPackAux chunkSize (pySplit text) []).map (pyJoin " ")

/-- A stored document chunk (`{text, embedding, chunk_id}` dict). -/
structure Chunk where
  text : String
  chunk_id : String
  embedding : List ℚ
  deriving DecidableEq

/-- A retrieval result (`{text, chunk_id, score}` dict). -/
structure Retrieved where
  text : String
  chunk_id : String
  score : ℚ
  deriving DecidableEq

/-- Comparison used by `argsortAsc`: index `i` precedes index `j` when the
similarity at `i` is at most the similarity at `j`. -/
def simLE (xs : List ℚ) (i j : Nat) : Prop := xs.getD i 0 ≤ xs.getD j 0

instance simLE_decidable (xs : List ℚ) : DecidableRel (simLE xs) :=
  fun i j => inferInstanceAs (Decidable (xs.getD i 0 ≤ xs.getD j 0))

instance simLE_total (xs : List ℚ) : IsTotal Nat (simLE xs) :=
  ⟨fun _ _ => le_total _ _⟩

instance simLE_trans (xs : List ℚ) : IsTrans Nat (simLE xs) :=
  ⟨fun _ _ _ => le_trans⟩

/-- Numpy `np.argsort(xs)`: indices that sort `xs` ascending; ties modelled
as keeping original order (stable sort on indices). -/
def argsortAsc (xs : List ℚ) : List Nat :=
  (List.range xs.length).insertionSort (simLE xs)

/-- Python slice `a[-t:]` for an integer `t`: for `t > 0` the last
`min t (length a)` elements; for `t ≤ 0` it is `a[(-t):]`, dropping the
first `-t` elements. -/
def pySliceLast (t : Int) (l : List α) : List α :=
  if 0 < t then l.drop (l.length - t.toNat) else l.drop (-t).toNat

/-- Python `top_k = top_k or settings.TOP_K`: `None` and `0` are falsy. -/
def effectiveTopK : Option Int → Int
  | none => TOP_K
  | some t => if t = 0 then TOP_K else t

/-- Index selection of `retrieve_relevant_chunks`:
`np.argsort(similarities)[-top_k:][::-1]`. -/
def topIndices (similarities : List ℚ) (topK : Int) : List Nat :=
  (pySliceLast topK (argsortAsc similarities)).reverse

/-- Placeholder chunk used to make list indexing total; every index used by
`retrieve_relevant_chunks` is in range, so it is never actually read. -/
def defaultChunk : Chunk := ⟨"", "", []⟩

/-- The rational 0.9, written in lowest terms so that it evaluates by
kernel reduction. -/
def q09 : ℚ := ⟨9, 10, by decide, by decide⟩

/-- The rational 0.1 in lowest terms. -/
def q01 : ℚ := ⟨1, 10, by decide, by decide⟩

/-- The rational 0.5 in lowest terms. -/
def q05 : ℚ := ⟨1, 2, by decide, by decide⟩

/-- The rational 0.3 in lowest terms. -/
def q03 : ℚ := ⟨3, 10, by decide, by decide⟩

/-- The `RAGService.retrieve_relevant_chunks` method (`rag_service.py`
lines 59-100). `cosSim` is the composite of the query encoder and sklearn's
`cosine_similarity`, left as a parameter; on an empty `document_chunks`
list sklearn raises (`none`), because the stacked embedding matrix is empty. -/
def retrieve_relevant_chunks (cosSim : String → List ℚ → ℚ) (query : String)
    (document_chunks : List Chunk) (top_k : Option Int := none) :
    Option (List Retrieved) :=
  let topK := effectiveTopK top_k
  if document_chunks = [] then none
  else
    let similarities := document_chunks.map (fun c => cosSim query c.embedding)
    some ((topIndices similarities topK).map (fun idx =>
      { text := (document_chunks.getD idx defaultChunk).text
        chunk_id := (document_chunks.getD idx defaultChunk).chunk_id
        score := similarities.getD idx 0 }))

/-- The `LLMService.count_tokens` method: `len(text) // 4`. -/
def count_tokens (text : String) : Nat := text.length / 4

/-- A conversation message as stored by `main.py` (`role`, `content`,
`tokens`; the timestamp and model fields play no role in the claims). -/
structure Message where
  role : String
  content : String
  tokens : Nat
  deriving DecidableEq

/-- Role/content pair as sent to the LLM API. -/
structure RoleContent where
  role : String
  content : String
  deriving DecidableEq

/-- Python slice `messages[-k:]` for a non-negative `k` (note `a[-0:]` is
the whole list). -/
def pyNegSlice (k : Nat) (l : List α) : List α :=
  if k = 0 then l else l.drop (l.length - k)

/-- The `LLMService.prepare_context` method (`llm_service.py` lines 69-86):
keep only the last `max_history` messages when there are more than that,
then project each message to its role/content pair. -/
def prepare_context (messages : List Message) (max_history : Nat := 10) :
    List RoleContent :=
  let recent :=
    if messages.length > max_history then pyNegSlice max_history messages
    else messages
  recent.map (fun m => ⟨m.role, m.content⟩)

/-- A successful upstream LLM response (`{content, tokens, model}`; the
model name plays no role in the claims). -/
structure LLMResponse where
  content : String
  tokens : Nat
  deriving DecidableEq

/-- A stored conversation (`ConversationDB` in `models.py`, restricted to
the fields the claims are about). -/
structure Conversation where
  conversation_id : String
  mode : String
  messages : List Message
  total_tokens : Nat
  deriving DecidableEq

/-- The `ConversationRepo.add_message` update (`database.py` lines 76-90):
`$push` the message and `$inc` `total_tokens` by the message's tokens. -/
def repo_add_message (c : Conversation) (m : Message) : Conversation :=
  { c with messages := c.messages ++ [m], total_tokens := c.total_tokens + m.tokens }

/-- The user message built by the endpoints of `main.py`. -/
def mkUserMessage (content : String) : Message :=
  ⟨"user", content, count_tokens content⟩

/-- The assistant message built by the endpoints of `main.py` from the
LLM response. -/
def mkAssistantMessage (r : LLMResponse) : Message :=
  ⟨"assistant", r.content, r.tokens⟩

/-- The `add_message` endpoint of `main.py` (lines 226-268), as a transformer
of the stored conversation: the user message is persisted with
`ConversationRepo.add_message` before the LLM call; `llm = none` models the
upstream call failing or timing out, in which case the raised exception
leaves the store with the user message already appended. -/
def add_message (conv : Conversation) (content : String)
    (llm : Option LLMResponse) : Conversation :=
  let conv1 := repo_add_message conv (mkUserMessage content)
  match llm with
  | none => conv1
  | some resp => repo_add_message conv1 (mkAssistantMessage resp)

/-- The `create_conversation` endpoint of `main.py` (lines 140-155 of the
spec's numbering): the LLM is called first; only on success is a conversation
with the first user/assistant pair persisted (`uuid4` id modelled as `""`). -/
def create_conversation (mode : String) (first_message : String)
    (llm : Option LLMResponse) : Option Conversation :=
  match llm with
  | none => none
  | some resp =>
      let user := mkUserMessage first_message
      let assistant := mkAssistantMessage resp
      some { conversation_id := ""
             mode := mode
             messages := [user, assistant]
             total_tokens := user.tokens + assistant.tokens }

/-- Sum of the token counts of a message list. -/
def tokenSum (ms : List Message) : Nat := (ms.map Message.tokens).sum

/-- Folding a batch of `add_message` endpoint calls over a conversation. -/
def runMessages (c : Conversation) (ops : List (String × Option LLMResponse)) :
    Conversation :=
  ops.foldl (fun c p => add_message c p.1 p.2) c

/-! ### Helper lemmas -/

lemma tokenSum_append (ms : List Message) (m : Message) :
    tokenSum (ms ++ [m]) = tokenSum ms + m.tokens := by
  simp [tokenSum]

lemma total_tokens_repo_add (c : Conversation) (m : Message)
    (h : c.total_tokens = tokenSum c.messages) :
    (repo_add_message c m).total_tokens = tokenSum (repo_add_message c m).messages := by
  simp [repo_add_message, tokenSum_append, h]

lemma total_tokens_add_message (c : Conversation) (content : String)
    (llm : Option LLMResponse) (h : c.total_tokens = tokenSum c.messages) :
    (add_message c content llm).total_tokens = tokenSum (add_message c content llm).messages := by
  cases llm with
  | none => simpa [add_message] using total_tokens_repo_add c (mkUserMessage content) h
  | some resp =>
      simpa [add_message] using
        total_tokens_repo_add _ (mkAssistantMessage resp)
          (total_tokens_repo_add c (mkUserMessage content) h)

/-! ### Claim theorems: conversation state -/

/-- C2 counterexample: in the `add_message` endpoint the user message is
persisted before the upstream generation call, so a failing LLM call
(`llm = none`) leaves the stored conversation different from what it was
before the call. -/
theorem add_message_failure_cex :
    add_message ⟨"c1", "open_chat", [], 0⟩ "hello" none ≠
      (⟨"c1", "open_chat", [], 0⟩ : Conversation) := by
  decide

/-- C2 (amended): if the upstream generation call fails, the stored
conversation has already gained the user message and its token count; only
the assistant message is not persisted. -/
theorem add_message_failure_keeps_user (conv : Conversation) (content : String) :
    (add_message conv content none).messages = conv.messages ++ [mkUserMessage content] ∧
    (add_message conv content none).total_tokens =
      conv.total_tokens + count_tokens content := by
  simp [add_message, repo_add_message, mkUserMessage]

/-- C8: after creating a conversation with its first user/assistant pair and
then running any sequence of `add_message` endpoint calls, `total_tokens`
equals the sum of the token counts of all stored messages. -/
theorem total_tokens_invariant (mode fm : String) (resp : LLMResponse)
    (ops : List (String × Option LLMResponse)) (c0 : Conversation)
    (h : create_conversation mode fm (some resp) = some c0) :
    (runMessages c0 ops).total_tokens = tokenSum (runMessages c0 ops).messages := by
  have h0 : c0.total_tokens = tokenSum c0.messages := by
    simp only [create_conversation, Option.some.injEq] at h
    subst h
    simp [tokenSum]
  clear h
  induction ops generalizing c0 with
  | nil => simpa [runMessages] using h0
  | cons p ops ih =>
      have step := total_tokens_add_message c0 p.1 p.2 h0
      simpa [runMessages, List.foldl_cons] using ih _ step

/-- C8 witness: a concrete conversation built from a first message and two
subsequent `add_message` calls (one of which fails) satisfies the
`total_tokens` invariant. -/
theorem total_tokens_invariant_witness :
    create_conversation "open_chat" "hello!" (some ⟨"ok there", 5⟩) =
      some ⟨"", "open_chat", [⟨"user", "hello!", 1⟩, ⟨"assistant", "ok there", 5⟩], 6⟩ ∧
    (runMessages ⟨"", "open_chat", [⟨"user", "hello!", 1⟩, ⟨"assistant", "ok there", 5⟩], 6⟩
        [("second message", none), ("third", some ⟨"reply", 7⟩)]).total_tokens =
      tokenSum (runMessages ⟨"", "open_chat",
        [⟨"user", "hello!", 1⟩, ⟨"assistant", "ok there", 5⟩], 6⟩
        [("second message", none), ("third", some ⟨"reply", 7⟩)]).messages :=
  ⟨by decide,
   total_tokens_invariant "open_chat" "hello!" ⟨"ok there", 5⟩
     [("second message", none), ("third", some ⟨"reply", 7⟩)] _ (by decide)⟩

/-! ### Claim theorems: context window and chunk-size default -/

/-- C9: for `max_history ≥ 1`, `prepare_context` keeps exactly the last
`max_history` messages in original order when the conversation is longer
than that, and returns the full sequence (projected to role/content pairs)
unchanged otherwise. -/
theorem prepare_context_window (messages : List Message) (k : Nat) (hk : 1 ≤ k) :
    (messages.length > k →
      prepare_context messages k =
        (messages.drop (messages.length - k)).map
          (fun m => (⟨m.role, m.content⟩ : RoleContent)) ∧
      (prepare_context messages k).length = k) ∧
    (messages.length ≤ k →
      prepare_context messages k =
        messages.map (fun m => (⟨m.role, m.content⟩ : RoleContent))) := by
  constructor
  · intro h
    have hk0 : k ≠ 0 := by omega
    constructor
    · simp [prepare_context, pyNegSlice, h, hk0]
    · simp [prepare_context, pyNegSlice, h, hk0]
      omega
  · intro h
    have h2 : ¬ (messages.length > k) := by omega
    simp [prepare_context, h2]

/-- C9 witness: with two messages and `max_history = 1` only the last
message survives, projected to its role/content pair. -/
theorem prepare_context_window_witness :
    prepare_context [⟨"user", "a", 0⟩, ⟨"assistant", "b", 0⟩] 1 =
      [⟨"assistant", "b"⟩] := by
  have h :=
    ((prepare_context_window [⟨"user", "a", 0⟩, ⟨"assistant", "b", 0⟩] 1
      (by decide)).1 (by decide)).1
  rw [h]
  decide

/-- C10: a falsy `chunk_size` (`0` or `None`) is replaced by the configured
default of 500, so the output equals that of `chunk_size = 500`. -/
theorem chunk_text_falsy_default (text : String) :
    chunk_text text (some 0) = chunk_text text (some 500) ∧
    chunk_text text none = chunk_text text (some 500) := by
  constructor <;> simp [chunk_text, effectiveChunkSize, CHUNK_SIZE]

/-! ### Chunking lemmas -/

lemma wordsLen_cons (w : String) (ws : List String) :
    wordsLen (w :: ws) = w.length + 1 + wordsLen ws := by
  simp [wordsLen]

lemma wordsLen_append_single (ws : List String) (w : String) :
    wordsLen (ws ++ [w]) = wordsLen ws + (w.length + 1) := by
  simp [wordsLen]

lemma pyJoin_length_cons (w : String) (ws : List String) :
    (pyJoin " " (w :: ws)).length = w.length + wordsLen ws := by
  induction ws generalizing w with
  | nil => simp [pyJoin, wordsLen]
  | cons w2 ws ih =>
      have hsp : (" " : String).length = 1 := rfl
      simp only [pyJoin, String.length_append, ih w2, wordsLen_cons, hsp]
      omega

lemma wordsLen_eq_join_length (l : List String) (h : l ≠ []) :
    wordsLen l = (pyJoin " " l).length + 1 := by
  obtain ⟨w, ws, rfl⟩ := List.exists_cons_of_ne_nil h
  rw [pyJoin_length_cons, wordsLen_cons]
  omega

lemma chunkAux_eq_greedyAux (cs : Nat) (ws : List String) :
    ∀ current, chunkAux (cs : Int) ws current (wordsLen current) =
      greedyPackAux cs ws current := by
  induction ws with
  | nil => intro current; rfl
  | cons w ws ih =>
      intro current
      by_cases hc : current = []
      · subst hc
        rw [chunkAux, greedyPackAux,
          if_neg (fun h => h.2 rfl), if_neg (fun h => h.1 rfl)]
        simpa [wordsLen] using ih [w]
      · have hj : wordsLen current + (w.length + 1) =
            (pyJoin " " (current ++ [w])).length + 1 := by
          rw [← wordsLen_eq_join_length _ (by simp), wordsLen_append_single]
        have hiff : (((wordsLen current + (w.length + 1) : Nat) : Int) > (cs : Int) ∧
              current ≠ []) ↔
            (current ≠ [] ∧ cs ≤ (pyJoin " " (current ++ [w])).length) := by
          constructor
          · rintro ⟨h1, h2⟩
            refine ⟨h2, ?_⟩
            have : cs < wordsLen current + (w.length + 1) := by exact_mod_cast h1
            omega
          · rintro ⟨h1, h2⟩
            refine ⟨?_, h1⟩
            have : cs < wordsLen current + (w.length + 1) := by omega
            exact_mod_cast this
        rw [chunkAux, greedyPackAux]
        by_cases hcond : current ≠ [] ∧ cs ≤ (pyJoin " " (current ++ [w])).length
        · rw [if_pos (hiff.mpr hcond), if_pos hcond]
          have h1 := ih [w]
          rw [show wordsLen [w] = w.length + 1 by simp [wordsLen]] at h1
          rw [h1]
        · rw [if_neg (fun h => hcond (hiff.mp h)), if_neg hcond,
            show wordsLen current + (w.length + 1) = wordsLen (current ++ [w]) from
              (wordsLen_append_single current w).symm]
          exact ih (current ++ [w])

lemma chunk_text_eq_greedyPack (text : String) (cs : Nat) (hcs : 1 ≤ cs) :
    chunk_text text (some (cs : Int)) = greedyPack text cs := by
  have hne : ((cs : Nat) : Int) ≠ 0 := by
    simpa using (by omega : cs ≠ 0)
  unfold chunk_text greedyPack
  rw [show effectiveChunkSize (some (cs : Int)) = (cs : Int) by
    simp [effectiveChunkSize, hne]]
  have h := chunkAux_eq_greedyAux cs (pySplit text) []
  rw [show wordsLen [] = 0 by simp [wordsLen]] at h
  rw [h]

lemma greedyPackAux_flatten (cs : Nat) (ws : List String) :
    ∀ current, (greedyPackAux cs ws current).flatten = current ++ ws := by
  induction ws with
  | nil =>
      intro current
      by_cases h : current = [] <;> simp [greedyPackAux, h]
  | cons w ws ih =>
      intro current
      rw [greedyPackAux]
      by_cases h : current ≠ [] ∧ cs ≤ (pyJoin " " (current ++ [w])).length
      · rw [if_pos h]
        simp [ih [w]]
      · rw [if_neg h, ih (current ++ [w])]
        simp

lemma greedyPackAux_mem (cs : Nat) (ws : List String) :
    ∀ current c, c ∈ greedyPackAux cs ws current → c = current ∨ c ≠ [] := by
  induction ws with
  | nil =>
      intro current c hc
      by_cases h : current = [] <;> simp [greedyPackAux, h] at hc
      · exact Or.inl hc
  | cons w ws ih =>
      intro current c hc
      rw [greedyPackAux] at hc
      by_cases h : current ≠ [] ∧ cs ≤ (pyJoin " " (current ++ [w])).length
      · rw [if_pos h] at hc
        rcases List.mem_cons.mp hc with rfl | hc2
        · exact Or.inl rfl
        · rcases ih [w] c hc2 with rfl | hne
          · exact Or.inr (by simp)
          · exact Or.inr hne
      · rw [if_neg h] at hc
        rcases ih (current ++ [w]) c hc with rfl | hne
        · exact Or.inr (by simp)
        · exact Or.inr hne

lemma greedyPackAux_nil_ne_nil (cs : Nat) (ws : List String) :
    ∀ c ∈ greedyPackAux cs ws [], c ≠ [] := by
  cases ws with
  | nil => simp [greedyPackAux]
  | cons w ws =>
      intro c hc
      rw [greedyPackAux, if_neg (fun h => h.1 rfl)] at hc
      rcases greedyPackAux_mem cs ws [w] c hc with rfl | hne
      · simp
      · exact hne

lemma greedyPackAux_shape (cs : Nat) (ws : List String) :
    ∀ current, (current = [] ∨ (∃ w, current = [w]) ∨ wordsLen current ≤ cs) →
      ∀ c ∈ greedyPackAux cs ws current,
        (∃ w, c = [w]) ∨ wordsLen c ≤ cs := by
  induction ws with
  | nil =>
      intro current hP c hc
      by_cases h : current = [] <;> simp [greedyPackAux, h] at hc
      subst hc
      rcases hP with rfl | h2 | h3
      · exact absurd rfl h
      · exact Or.inl h2
      · exact Or.inr h3
  | cons w ws ih =>
      intro current hP c hc
      rw [greedyPackAux] at hc
      by_cases h : current ≠ [] ∧ cs ≤ (pyJoin " " (current ++ [w])).length
      · rw [if_pos h] at hc
        rcases List.mem_cons.mp hc with rfl | hc2
        · rcases hP with rfl | h2 | h3
          · exact absurd rfl h.1
          · exact Or.inl h2
          · exact Or.inr h3
        · exact ih [w] (Or.inr (Or.inl ⟨w, rfl⟩)) c hc2
      · rw [if_neg h] at hc
        refine ih (current ++ [w]) ?_ c hc
        push_neg at h
        by_cases hnil : current = []
        · subst hnil
          exact Or.inr (Or.inl ⟨w, rfl⟩)
        · have hlt : (pyJoin " " (current ++ [w])).length < cs := h hnil
          refine Or.inr (Or.inr ?_)
          rw [wordsLen_eq_join_length _ (by simp)]
          omega

lemma pyJoin_append : ∀ (xs ys : List String), xs ≠ [] → ys ≠ [] →
    pyJoin " " (xs ++ ys) = pyJoin " " xs ++ " " ++ pyJoin " " ys
  | [], _, hx, _ => absurd rfl hx
  | [_], [], _, hy => absurd rfl hy
  | [x], y :: yr, _, _ => by simp [pyJoin]
  | x :: x2 :: xr, ys, _, hy => by
      have ih := pyJoin_append (x2 :: xr) ys (by simp) hy
      show pyJoin " " (x :: (x2 :: (xr ++ ys))) = _
      rw [show (x :: (x2 :: (xr ++ ys))) = x :: ((x2 :: xr) ++ ys) from rfl]
      cases hys : (x2 :: xr) ++ ys with
      | nil => simp at hys
      | cons z zs =>
          rw [show pyJoin " " (x :: z :: zs) = x ++ " " ++ pyJoin " " (z :: zs) from rfl,
            ← hys, ih,
            show pyJoin " " (x :: x2 :: xr) = x ++ " " ++ pyJoin " " (x2 :: xr) from rfl]
          simp [String.append_assoc]

lemma pyJoin_map_flatten : ∀ (chunks : List (List String)),
    (∀ c ∈ chunks, c ≠ []) →
    pyJoin " " (chunks.map (pyJoin " ")) = pyJoin " " chunks.flatten
  | [], _ => by simp [pyJoin]
  | [c], _ => by simp [pyJoin]
  | c :: c2 :: rest, h => by
      have h2 : ∀ x ∈ c2 :: rest, x ≠ [] :=
        fun x hx => h x (List.mem_cons_of_mem _ hx)
      have ihr := pyJoin_map_flatten (c2 :: rest) h2
      have hc : c ≠ [] := h c (List.mem_cons_self _ _)
      have hjoin_ne : (c2 :: rest).flatten ≠ [] := by
        have hc2 : c2 ≠ [] := h2 c2 (List.mem_cons_self _ _)
        simp only [List.flatten_cons, ne_eq, List.append_eq_nil]
        exact fun hcontra => hc2 hcontra.1
      calc pyJoin " " ((c :: c2 :: rest).map (pyJoin " "))
          = pyJoin " " c ++ " " ++ pyJoin " " ((c2 :: rest).map (pyJoin " ")) := rfl
        _ = pyJoin " " c ++ " " ++ pyJoin " " (c2 :: rest).flatten := by rw [ihr]
        _ = pyJoin " " (c ++ (c2 :: rest).flatten) := (pyJoin_append _ _ hc hjoin_ne).symm
        _ = pyJoin " " ((c :: c2 :: rest)).flatten := by simp

/-! ### Claim theorems: chunking -/

/-- C4 counterexample: with `chunk_size = 3` and text `"a b"`, appending
`"b"` would make the joined chunk `"a b"` have length exactly 3 equal to
`chunk_size`, yet the code starts a new chunk, while the claimed rule
(strict exceed only) keeps it in the same chunk. -/
theorem chunk_text_exact_boundary_cex :
    chunk_text "a b" (some 3) = ["a", "b"] ∧
    specPack "a b" 3 = ["a b"] ∧
    (["a", "b"] : List String) ≠ ["a b"] := by
  decide

/-- C4 (amended): `chunk_text` packs tokens greedily, but closes the current
chunk as soon as appending the next token would make the joined chunk length
reach or exceed `chunk_size` (the code's `current_length` counts a trailing
separator); a token whose addition makes the joined length exactly
`chunk_size` therefore starts a new chunk. -/
theorem chunk_text_amended (text : String) (cs : Nat) (hcs : 1 ≤ cs) :
    chunk_text text (some (cs : Int)) = greedyPack text cs :=
  chunk_text_eq_greedyPack text cs hcs

/-- C4 witness: the amended packing rule agrees with the code on the
boundary example. -/
theorem chunk_text_amended_witness :
    1 ≤ 3 ∧ chunk_text "a b" (some (3 : Nat)) = greedyPack "a b" 3 :=
  ⟨by decide, chunk_text_amended "a b" 3 (by decide)⟩

/-- C5: for `chunk_size ≥ 1`, every chunk produced by `chunk_text` has
length at most `chunk_size`, except when the chunk is a single
whitespace-delimited token of the text that itself exceeds `chunk_size`;
and the empty text yields no chunks. -/
theorem chunk_text_length_bound (cs : Nat) (hcs : 1 ≤ cs) (text : String) :
    (∀ c ∈ chunk_text text (some (cs : Int)),
      c.length ≤ cs ∨ (cs < c.length ∧ c ∈ pySplit text)) ∧
    chunk_text "" (some (cs : Int)) = [] := by
  constructor
  · intro c hc
    rw [chunk_text_eq_greedyPack text cs hcs] at hc
    unfold greedyPack at hc
    obtain ⟨cl, hcl, rfl⟩ := List.mem_map.mp hc
    rcases greedyPackAux_shape cs (pySplit text) [] (Or.inl rfl) cl hcl with ⟨w, rfl⟩ | hlen
    · by_cases hw : w.length ≤ cs
      · exact Or.inl (by simpa [pyJoin] using hw)
      · refine Or.inr ⟨by simpa [pyJoin] using Nat.lt_of_not_le hw, ?_⟩
        have hwmem : w ∈ (greedyPackAux cs (pySplit text) []).flatten :=
          List.mem_flatten.mpr ⟨[w], hcl, by simp⟩
        rw [greedyPackAux_flatten cs (pySplit text) []] at hwmem
        simpa [pyJoin] using hwmem
    · by_cases hnil : cl = []
      · subst hnil
        exact Or.inl (by simp [pyJoin])
      · have := wordsLen_eq_join_length cl hnil
        exact Or.inl (by omega)
  · have hsplit : pySplit "" = [] := by decide
    simp [chunk_text, hsplit, chunkAux]

/-- C5 witness: with `chunk_size = 3` and text `"aaaa b"`, the oversized
token `"aaaa"` forms its own over-bound chunk and the other chunk fits. -/
theorem chunk_text_length_bound_witness :
    1 ≤ 3 ∧
    ((∀ c ∈ chunk_text "aaaa b" (some ((3 : Nat) : Int)),
        c.length ≤ 3 ∨ (3 < c.length ∧ c ∈ pySplit "aaaa b")) ∧
      chunk_text "" (some ((3 : Nat) : Int)) = []) :=
  ⟨by decide, chunk_text_length_bound 3 (by decide) "aaaa b"⟩

/-- C6: for `chunk_size ≥ 1`, joining the chunks produced by `chunk_text`
with single spaces reproduces the whitespace-normalized text, i.e. the
whitespace-split tokens joined with single spaces. -/
theorem chunk_text_join_normalized (cs : Nat) (hcs : 1 ≤ cs) (text : String) :
    pyJoin " " (chunk_text text (some (cs : Int))) = pyJoin " " (pySplit text) := by
  rw [chunk_text_eq_greedyPack text cs hcs]
  unfold greedyPack
  rw [pyJoin_map_flatten _ (greedyPackAux_nil_ne_nil cs (pySplit text)),
    greedyPackAux_flatten cs (pySplit text) []]
  simp

/-- C6 witness: a concrete text with irregular whitespace round-trips to its
normalized form. -/
theorem chunk_text_join_normalized_witness :
    1 ≤ 5 ∧
    pyJoin " " (chunk_text "  the   quick  brown fox " (some ((5 : Nat) : Int))) =
      pyJoin " " (pySplit "  the   quick  brown fox ") :=
  ⟨by decide, chunk_text_join_normalized 5 (by decide) "  the   quick  brown fox "⟩

/-! ### Retrieval lemmas -/

lemma argsortAsc_perm (xs : List ℚ) : (argsortAsc xs).Perm (List.range xs.length) :=
  List.perm_insertionSort _ _

lemma argsortAsc_length (xs : List ℚ) : (argsortAsc xs).length = xs.length := by
  simp [argsortAsc, List.length_insertionSort]

lemma argsortAsc_sorted (xs : List ℚ) : List.Pairwise (simLE xs) (argsortAsc xs) :=
  List.sorted_insertionSort (simLE xs) (List.range xs.length)

lemma argsortAsc_nodup (xs : List ℚ) : (argsortAsc xs).Nodup :=
  (argsortAsc_perm xs).nodup_iff.mpr (List.nodup_range _)

lemma pySliceLast_eq_drop (t : Int) (l : List α) : ∃ k, pySliceLast t l = l.drop k := by
  unfold pySliceLast
  by_cases h : (0 : Int) < t
  · rw [if_pos h]; exact ⟨_, rfl⟩
  · rw [if_neg h]; exact ⟨_, rfl⟩

lemma pair_sublist_range {i j n : Nat} (hij : i < j) (hj : j < n) :
    [i, j].Sublist (List.range n) := by
  induction n with
  | zero => omega
  | succ n ih =>
      rw [List.range_succ]
      by_cases h : j < n
      · exact (ih h).trans (List.sublist_append_left _ _)
      · have hjn : j = n := by omega
        subst hjn
        exact List.Sublist.append (List.singleton_sublist.mpr (List.mem_range.mpr hij))
          (List.Sublist.refl _)

lemma range_map_getD (l : List α) (d : α) (f : α → β) :
    (List.range l.length).map (fun i => f (l.getD i d)) = l.map f := by
  apply List.ext_getElem
  · simp
  · intro i h1 h2
    simp only [List.getElem_map, List.getElem_range]
    rw [List.getD_eq_getElem l d (by simpa using h2)]

lemma retrieve_unfold (f : String → List ℚ → ℚ) (q : String) (chunks : List Chunk)
    (t : Int) (hne : chunks ≠ []) (ht0 : t ≠ 0) :
    retrieve_relevant_chunks f q chunks (some t) =
      some ((topIndices (chunks.map (fun c => f q c.embedding)) t).map (fun idx =>
        ({ text := (chunks.getD idx defaultChunk).text
           chunk_id := (chunks.getD idx defaultChunk).chunk_id
           score := (chunks.map (fun c => f q c.embedding)).getD idx 0 } : Retrieved))) := by
  simp only [retrieve_relevant_chunks, effectiveTopK, if_neg ht0, if_neg hne]

/-! ### Claim theorems: retrieval -/

/-- C1 counterexample: with an empty `document_chunks` list the retrieval
raises (the similarity computation rejects an empty matrix), and with a
negative `top_k` on two chunks it returns one result, not an empty
sequence. -/
theorem retrieve_nonpos_cex :
    retrieve_relevant_chunks (fun _ e => e.getD 0 0) "q" [] (some 1) = none ∧
    (retrieve_relevant_chunks (fun _ e => e.getD 0 0) "q"
        [⟨"t0", "c0", [q01]⟩, ⟨"t1", "c1", [q09]⟩] (some (-1))).map
      (List.map Retrieved.chunk_id) = some ["c1"] ∧
    some (["c1"] : List String) ≠ some [] := by
  decide

/-- C1 (amended): `retrieve_relevant_chunks` raises on an empty
`document_chunks` list; `top_k = 0` is falsy and silently replaced by the
default `TOP_K`; a negative `top_k = -m` returns the top
`len(document_chunks) - m` chunks rather than an empty sequence. -/
theorem retrieve_nonpos_amended (f : String → List ℚ → ℚ) (q : String)
    (chunks : List Chunk) (m : Nat) (hm : 0 < m) (hne : chunks ≠ []) :
    retrieve_relevant_chunks f q [] (some (m : Int)) = none ∧
    retrieve_relevant_chunks f q chunks (some 0) =
      retrieve_relevant_chunks f q chunks none ∧
    ∃ rs, retrieve_relevant_chunks f q chunks (some (-(m : Int))) = some rs ∧
      rs.length = chunks.length - m := by
  refine ⟨by simp [retrieve_relevant_chunks],
    by simp [retrieve_relevant_chunks, effectiveTopK], ?_⟩
  have hm0 : (-(m : Int)) ≠ 0 := by
    simp only [ne_eq, neg_eq_zero, Int.natCast_eq_zero]
    omega
  rw [retrieve_unfold f q chunks _ hne hm0]
  refine ⟨_, rfl, ?_⟩
  have hnpos : ¬ ((0 : Int) < -(m : Int)) := by omega
  have hslice :
      pySliceLast (-(m : Int)) (argsortAsc (chunks.map (fun c => f q c.embedding))) =
        (argsortAsc (chunks.map (fun c => f q c.embedding))).drop m := by
    simp [pySliceLast, hnpos]
  simp only [topIndices, hslice, List.length_map, List.length_reverse,
    List.length_drop, argsortAsc_length]

/-- C1 witness: with one chunk and `m = 1` the amended behaviour is
realized concretely. -/
theorem retrieve_nonpos_amended_witness :
    (0 < 1 ∧ ([⟨"t0", "c0", [q01]⟩, ⟨"t1", "c1", [q09]⟩] : List Chunk) ≠ []) ∧
    (retrieve_relevant_chunks (fun _ e => e.getD 0 0) "q" [] (some ((1 : Nat) : Int)) = none ∧
     retrieve_relevant_chunks (fun _ e => e.getD 0 0) "q"
        [⟨"t0", "c0", [q01]⟩, ⟨"t1", "c1", [q09]⟩] (some 0) =
       retrieve_relevant_chunks (fun _ e => e.getD 0 0) "q"
        [⟨"t0", "c0", [q01]⟩, ⟨"t1", "c1", [q09]⟩] none ∧
     ∃ rs, retrieve_relevant_chunks (fun _ e => e.getD 0 0) "q"
        [⟨"t0", "c0", [q01]⟩, ⟨"t1", "c1", [q09]⟩] (some (-((1 : Nat) : Int))) = some rs ∧
       rs.length = 2 - 1) :=
  ⟨⟨by decide, by decide⟩,
   retrieve_nonpos_amended (fun _ e => e.getD 0 0) "q"
     [⟨"t0", "c0", [q01]⟩, ⟨"t1", "c1", [q09]⟩] 1 (by decide) (by decide)⟩

set_option maxHeartbeats 1000000 in
/-- C7: for `top_k ≥ 1` and a non-empty chunk list, retrieval succeeds with
at most `top_k` results (exactly `min top_k n`), scores are non-increasing,
and when the chunk count does not exceed `top_k` every chunk's text is
returned. -/
theorem retrieve_topk (f : String → List ℚ → ℚ) (q : String) (chunks : List Chunk)
    (t : Int) (ht : 1 ≤ t) (hne : chunks ≠ []) :
    ∃ rs, retrieve_relevant_chunks f q chunks (some t) = some rs ∧
      rs.length = min t.toNat chunks.length ∧
      List.Pairwise (fun a b => b.score ≤ a.score) rs ∧
      (chunks.length ≤ t.toNat →
        (rs.map Retrieved.text).Perm (chunks.map Chunk.text)) := by
  have ht0 : t ≠ 0 := by omega
  have hpos : (0 : Int) < t := by omega
  rw [retrieve_unfold f q chunks t hne ht0]
  refine ⟨_, rfl, ?_, ?_, ?_⟩
  · -- length
    have hslice :
        pySliceLast t (argsortAsc (chunks.map (fun c => f q c.embedding))) =
          (argsortAsc (chunks.map (fun c => f q c.embedding))).drop
            ((argsortAsc (chunks.map (fun c => f q c.embedding))).length - t.toNat) := by
      simp [pySliceLast, hpos]
    have htn : 1 ≤ t.toNat := by omega
    simp only [topIndices, hslice, List.length_map, List.length_reverse,
      List.length_drop, argsortAsc_length]
    omega
  · -- sorted descending
    obtain ⟨k, hk⟩ :=
      pySliceLast_eq_drop t (argsortAsc (chunks.map (fun c => f q c.embedding)))
    have hsorted : List.Pairwise (simLE (chunks.map (fun c => f q c.embedding)))
        ((argsortAsc (chunks.map (fun c => f q c.embedding))).drop k) :=
      List.Pairwise.sublist (List.drop_sublist _ _)
        (argsortAsc_sorted (chunks.map (fun c => f q c.embedding)))
    rw [topIndices, hk, List.pairwise_map, List.pairwise_reverse]
    exact hsorted.imp (fun h => h)
  · -- all chunks returned when top_k covers them
    intro hle
    have hk0 : (argsortAsc (chunks.map (fun c => f q c.embedding))).length - t.toNat = 0 := by
      rw [argsortAsc_length, List.length_map]
      omega
    have hslice :
        pySliceLast t (argsortAsc (chunks.map (fun c => f q c.embedding))) =
          argsortAsc (chunks.map (fun c => f q c.embedding)) := by
      simp [pySliceLast, hpos, hk0]
    rw [topIndices, hslice]
    have hmaps : ∀ (l : List Nat),
        ((l.map (fun idx =>
          ({ text := (chunks.getD idx defaultChunk).text
             chunk_id := (chunks.getD idx defaultChunk).chunk_id
             score := (chunks.map (fun c => f q c.embedding)).getD idx 0 } :
            Retrieved))).map Retrieved.text) =
          l.map (fun idx => (chunks.getD idx defaultChunk).text) := by
      intro l
      rw [List.map_map]
      rfl
    rw [hmaps]
    have hperm :
        (argsortAsc (chunks.map (fun c => f q c.embedding))).reverse.Perm
          (List.range chunks.length) := by
      refine (List.reverse_perm _).trans ?_
      have := argsortAsc_perm (chunks.map (fun c => f q c.embedding))
      simpa using this
    refine (hperm.map _).trans ?_
    rw [range_map_getD chunks defaultChunk Chunk.text]

/-- C7 witness: two chunks and `top_k = 5` return both chunks, descending. -/
theorem retrieve_topk_witness :
    1 ≤ (5 : Int) ∧
    ∃ rs, retrieve_relevant_chunks (fun _ e => e.getD 0 0) "q"
        [⟨"t0", "c0", [q01]⟩, ⟨"t1", "c1", [q09]⟩] (some 5) = some rs ∧
      rs.length = min (5 : Int).toNat 2 ∧
      List.Pairwise (fun a b => b.score ≤ a.score) rs ∧
      (2 ≤ (5 : Int).toNat →
        (rs.map Retrieved.text).Perm
          (([⟨"t0", "c0", [q01]⟩, ⟨"t1", "c1", [q09]⟩] : List Chunk).map Chunk.text)) :=
  ⟨by decide,
   retrieve_topk (fun _ e => e.getD 0 0) "q"
     [⟨"t0", "c0", [q01]⟩, ⟨"t1", "c1", [q09]⟩] 5 (by decide) (by decide)⟩

/-- C3 counterexample: for five chunks with similarities
0.9, 0.1, 0.5, 0.9, 0.3 and `top_k = 2`, the two chunks scoring 0.9 come
back with the later-indexed chunk (`c3`) first, not the earlier one. -/
theorem retrieve_tie_order_cex :
    (retrieve_relevant_chunks (fun _ e => e.getD 0 0) "q"
        [⟨"t0", "c0", [q09]⟩, ⟨"t1", "c1", [q01]⟩, ⟨"t2", "c2", [q05]⟩,
         ⟨"t3", "c3", [q09]⟩, ⟨"t4", "c4", [q03]⟩] (some 2)).map
      (List.map Retrieved.chunk_id) = some ["c3", "c0"] ∧
    some (["c3", "c0"] : List String) ≠ some ["c0", "c3"] := by
  decide

/-- C3 (amended): chunks with identical similarity scores appear in the
result in reverse document order: if `i < j` score equally and both indices
survive the top-k slice, then `j` precedes `i` in the selected index list,
because the ascending argsort (stable) is reversed. -/
theorem topIndices_tie_reversed (sims : List ℚ) (t : Int) (i j : Nat)
    (hij : i < j) (hj : j < sims.length) (heq : sims.getD i 0 = sims.getD j 0)
    (hi : i ∈ topIndices sims t) (hjm : j ∈ topIndices sims t) :
    [j, i].Sublist (topIndices sims t) := by
  obtain ⟨k, hk⟩ := pySliceLast_eq_drop t (argsortAsc sims)
  have hsubA : [i, j].Sublist (argsortAsc sims) := by
    apply List.sublist_insertionSort
    · refine List.pairwise_pair.mpr ?_
      simp only [simLE]
      exact le_of_eq heq
    · exact pair_sublist_range hij hj
  have hnd : (argsortAsc sims).Nodup := argsortAsc_nodup sims
  rw [topIndices, hk] at hi hjm ⊢
  rw [List.mem_reverse] at hi hjm
  have hsubDrop : [i, j].Sublist ((argsortAsc sims).drop k) := by
    have hsplit : (argsortAsc sims).take k ++ (argsortAsc sims).drop k = argsortAsc sims :=
      List.take_append_drop k _
    have hsubA2 : [i, j].Sublist ((argsortAsc sims).take k ++ (argsortAsc sims).drop k) := by
      rw [hsplit]; exact hsubA
    have hnd2 : ((argsortAsc sims).take k ++ (argsortAsc sims).drop k).Nodup := by
      rw [hsplit]; exact hnd
    have hdisj := (List.nodup_append.mp hnd2).2.2
    rcases List.sublist_append_iff.mp hsubA2 with ⟨l1, l2, heq2, hs1, hs2⟩
    rcases l1 with _ | ⟨a, _ | ⟨b, rest⟩⟩
    · simp only [List.nil_append] at heq2
      rw [← heq2] at hs2
      exact hs2
    · simp only [List.cons_append, List.nil_append, List.cons.injEq] at heq2
      obtain ⟨rfl, rfl⟩ := heq2
      have himem : i ∈ (argsortAsc sims).take k := List.singleton_sublist.mp hs1
      exact (hdisj himem hi).elim
    · simp only [List.cons_append, List.cons.injEq] at heq2
      obtain ⟨rfl, rfl, h3⟩ := heq2
      have hjmem : j ∈ (argsortAsc sims).take k := hs1.subset (by simp)
      exact (hdisj hjmem hjm).elim
  have hrev := hsubDrop.reverse
  simpa using hrev

/-- C3 witness: on the claim's own scenario the amended order is realized:
indices 3 and 0 are both selected and 3 precedes 0. -/
theorem topIndices_tie_reversed_witness :
    (0 < 3 ∧ 3 < 5) ∧ [3, 0].Sublist (topIndices [q09, q01, q05, q09, q03] 2) :=
  ⟨by decide,
   topIndices_tie_reversed [q09, q01, q05, q09, q03] 2 0 3 (by decide) (by decide)
     (by decide) (by decide) (by decide)⟩

end BotGPT
